import Mathlib

/-!
Verification of the per-frame mesh deformation engine: the Verlet cloth
solver (`ClothPhysics.update`, in two variants) and the rigid folding
solver (`OrigamiSolver.computeFoldIndices`, `OrigamiSolver.applyFolds`).

Vertex buffers are modelled as functions from vertex index to 3D point
over the reals; the flat `Float32Array` triple at `i*3 .. i*3+2` becomes
the `x`, `y`, `z` components of `positions i`.
-/

structure Vec3 where
  x : ℝ
  y : ℝ
  z : ℝ

namespace Vec3

def add (a b : Vec3) : Vec3 := ⟨a.x + b.x, a.y + b.y, a.z + b.z⟩

def sub (a b : Vec3) : Vec3 := ⟨a.x - b.x, a.y - b.y, a.z - b.z⟩

/-- THREE.Vector3.cross -/
def cross (a b : Vec3) : Vec3 :=
  ⟨a.y * b.z - a.z * b.y, a.z * b.x - a.x * b.z, a.x * b.y - a.y * b.x⟩

/-- THREE.Vector3.length -/
noncomputable def length (v : Vec3) : ℝ :=
  Real.sqrt (v.x * v.x + v.y * v.y + v.z * v.z)

/-- THREE.Vector3.normalize: `divideScalar(this.length() || 1)` — a
zero-length vector is divided by 1 (left unchanged). -/
noncomputable def normalize (v : Vec3) : Vec3 :=
  let d := if length v = 0 then 1 else length v
  ⟨v.x / d, v.y / d, v.z / d⟩

/-- THREE.Vector3.distanceTo -/
noncomputable def distanceTo (a b : Vec3) : ℝ :=
  Real.sqrt ((b.x - a.x) * (b.x - a.x) + (b.y - a.y) * (b.y - a.y)
    + (b.z - a.z) * (b.z - a.z))

/-- THREE.Vector3.applyAxisAngle: builds the quaternion
`(axis * sin(angle/2), cos(angle/2))` (the axis is assumed normalized and
is not re-normalized) and applies it with
`t = 2 * cross(q, v); v + q.w * t + cross(q, t)`. -/
noncomputable def applyAxisAngle (axis : Vec3) (angle : ℝ) (v : Vec3) : Vec3 :=
  let s := Real.sin (angle / 2)
  let qx := axis.x * s
  let qy := axis.y * s
  let qz := axis.z * s
  let qw := Real.cos (angle / 2)
  let tx := 2 * (qy * v.z - qz * v.y)
  let ty := 2 * (qz * v.x - qx * v.z)
  let tz := 2 * (qx * v.y - qy * v.x)
  ⟨v.x + qw * tx + qy * tz - qz * ty,
   v.y + qw * ty + qz * tx - qx * tz,
   v.z + qw * tz + qx * ty - qy * tx⟩

end Vec3

/-- Pointwise update of a vertex buffer at one index. -/
def fupd (f : ℕ → Vec3) (i : ℕ) (v : Vec3) : ℕ → Vec3 :=
  fun j => if j = i then v else f j

/-- constants.ts -/
noncomputable def DRAG : ℝ := 0.98

/-- constants.ts -/
noncomputable def TIMESTEP : ℝ := 18 / 1000

namespace ClothPhysics

/-- The mutable per-frame state of the solver: the `positions` and
`prevPositions` buffers.  The remaining fields of the class
(`constraints`, `pins`, the interaction slot) are only read by `update`
and are passed as parameters. -/
structure VState where
  positions : ℕ → Vec3
  prevPositions : ℕ → Vec3

/-- A `[p1, p2, rest]` triple of the flat `constraints` array. -/
abbrev Constraint := ℕ × ℕ × ℝ

/-- `addConstraint` (both solver variants). -/
noncomputable def addConstraint (pos : ℕ → Vec3) (p1 p2 : ℕ) : Constraint :=
  (p1, p2, Vec3.distanceTo (pos p1) (pos p2))

/-- `generateConstraints`: walk the triangle index buffer three indices at
a time, pushing the three edge constraints of each triangle. -/
noncomputable def generateConstraints (pos : ℕ → Vec3) : List ℕ → List Constraint
  | a :: b :: c :: rest =>
      addConstraint pos a b :: addConstraint pos b c :: addConstraint pos c a ::
        generateConstraints pos rest
  | _ => []

/-- The wind modulation factor
`Math.sin(Date.now() * 0.005 + y * 0.1) * 0.5 + 0.5`; the wall-clock
reading `Date.now()` is made an explicit parameter `now`. -/
noncomputable def windFactor (now y : ℝ) : ℝ :=
  Real.sin (now * 0.005 + y * 0.1) * 0.5 + 0.5

/-- One step of the integration loop of `update` (interaction variant):
pinned vertices are skipped (before the override check), the overridden
vertex is snapped to the interaction position with its previous position
matched, all others get a Verlet step with drag, wind and gravity. -/
noncomputable def integrateVertex (pins : List ℕ) (ii : Option ℕ) (ip : Vec3)
    (wind : Vec3) (gravity now : ℝ) (st : VState) (i : ℕ) : VState :=
  if i ∈ pins then st
  else if ii = some i then
    { st with
      positions := fupd st.positions i ip,
      prevPositions := fupd st.prevPositions i ip }
  else
    let cur := st.positions i
    let old := st.prevPositions i
    let vx := (cur.x - old.x) * DRAG
    let vy := (cur.y - old.y) * DRAG
    let vz := (cur.z - old.z) * DRAG
    let wf := windFactor now cur.y
    { st with
      prevPositions := fupd st.prevPositions i cur,
      positions := fupd st.positions i
        ⟨cur.x + vx + wind.x * wf * TIMESTEP * TIMESTEP,
         cur.y + vy + gravity * TIMESTEP * TIMESTEP,
         cur.z + vz + wind.z * wf * TIMESTEP * TIMESTEP⟩ }

/-- The current distance between the two endpoints of a constraint. -/
noncomputable def currDistance (pos : ℕ → Vec3) (p1 p2 : ℕ) : ℝ :=
  let dx := (pos p2).x - (pos p1).x
  let dy := (pos p2).y - (pos p1).y
  let dz := (pos p2).z - (pos p1).z
  Real.sqrt (dx * dx + dy * dy + dz * dz)

/-- One constraint of the relaxation loop (interaction variant): an
endpoint is treated as pinned if it is in the pin set or is the
interaction particle; a zero current distance is skipped, as is a
constraint whose two weights are both zero. -/
noncomputable def relaxConstraint (pins : List ℕ) (ii : Option ℕ)
    (pos : ℕ → Vec3) (cst : Constraint) : ℕ → Vec3 :=
  let p1 := cst.1
  let p2 := cst.2.1
  let rest := cst.2.2
  let isP1Pinned := p1 ∈ pins ∨ ii = some p1
  let isP2Pinned := p2 ∈ pins ∨ ii = some p2
  let dx := (pos p2).x - (pos p1).x
  let dy := (pos p2).y - (pos p1).y
  let dz := (pos p2).z - (pos p1).z
  if currDistance pos p1 p2 = 0 then pos
  else
    let diff := (currDistance pos p1 p2 - rest) / currDistance pos p1 p2
    let w1 : ℝ := if isP1Pinned then 0 else 0.5
    let w2 : ℝ := if isP2Pinned then 0 else 0.5
    if w1 + w2 = 0 then pos
    else
      let pos1 := if isP1Pinned then pos
        else fupd pos p1
          ⟨(pos p1).x + dx * diff * w1,
           (pos p1).y + dy * diff * w1,
           (pos p1).z + dz * diff * w1⟩
      if isP2Pinned then pos1
      else fupd pos1 p2
        ⟨(pos1 p2).x - dx * diff * w2,
         (pos1 p2).y - dy * diff * w2,
         (pos1 p2).z - dz * diff * w2⟩

/-- One full pass over the constraint list. -/
noncomputable def relaxPass (pins : List ℕ) (ii : Option ℕ)
    (constraints : List Constraint) (st : VState) : VState :=
  { st with positions := constraints.foldl (relaxConstraint pins ii) st.positions }

/-- One step of the floor pass (interaction variant): clamp a vertex
below `y = 0` to the table and apply friction `0.9` to the horizontal
components of its previous position. -/
noncomputable def floorVertex (st : VState) (i : ℕ) : VState :=
  if (st.positions i).y < 0 then
    let friction : ℝ := 0.9
    let ox := (st.prevPositions i).x
    let oz := (st.prevPositions i).z
    let cx := (st.positions i).x
    let cz := (st.positions i).z
    { st with
      positions := fupd st.positions i ⟨cx, 0, cz⟩,
      prevPositions := fupd st.prevPositions i
        ⟨cx - (cx - ox) * friction, (st.prevPositions i).y,
         cz - (cz - oz) * friction⟩ }
  else st

/-- Floor pass over every vertex (interaction variant). -/
noncomputable def floorPass (count : ℕ) (st : VState) : VState :=
  (List.range count).foldl floorVertex st

/-- One relaxation iteration: the full constraint pass followed by the
floor pass. -/
noncomputable def relaxIteration (pins : List ℕ) (ii : Option ℕ)
    (constraints : List Constraint) (count : ℕ) (st : VState) : VState :=
  floorPass count (relaxPass pins ii constraints st)

/-- `ClothPhysics.update` (interaction/folding variant, floor at 0):
integration over all `count` vertices, then three iterations of
constraint relaxation each followed by the floor pass. -/
noncomputable def update (pins : List ℕ) (constraints : List Constraint)
    (ii : Option ℕ) (ip : Vec3) (wind : Vec3) (gravity now : ℝ)
    (count : ℕ) (st : VState) : VState :=
  let st1 := (List.range count).foldl (integrateVertex pins ii ip wind gravity now) st
  relaxIteration pins ii constraints count
    (relaxIteration pins ii constraints count
      (relaxIteration pins ii constraints count st1))

/-! The earlier solver variant (no interaction slot, floor at `y = -20`
with no friction). -/

/-- One step of the integration loop of the earlier `update` variant. -/
noncomputable def integrateVertex0 (pins : List ℕ) (wind : Vec3)
    (gravity now : ℝ) (st : VState) (i : ℕ) : VState :=
  if i ∈ pins then st
  else
    let cur := st.positions i
    let old := st.prevPositions i
    let vx := (cur.x - old.x) * DRAG
    let vy := (cur.y - old.y) * DRAG
    let vz := (cur.z - old.z) * DRAG
    let wf := windFactor now cur.y
    { st with
      prevPositions := fupd st.prevPositions i cur,
      positions := fupd st.positions i
        ⟨cur.x + vx + wind.x * wf * TIMESTEP * TIMESTEP,
         cur.y + vy + gravity * TIMESTEP * TIMESTEP,
         cur.z + vz + wind.z * wf * TIMESTEP * TIMESTEP⟩ }

/-- One constraint of the relaxation loop of the earlier variant: only
pin-set membership makes an endpoint immovable. -/
noncomputable def relaxConstraint0 (pins : List ℕ)
    (pos : ℕ → Vec3) (cst : Constraint) : ℕ → Vec3 :=
  let p1 := cst.1
  let p2 := cst.2.1
  let rest := cst.2.2
  let dx := (pos p2).x - (pos p1).x
  let dy := (pos p2).y - (pos p1).y
  let dz := (pos p2).z - (pos p1).z
  if currDistance pos p1 p2 = 0 then pos
  else
    let diff := (currDistance pos p1 p2 - rest) / currDistance pos p1 p2
    let w1 : ℝ := if p1 ∈ pins then 0 else 0.5
    let w2 : ℝ := if p2 ∈ pins then 0 else 0.5
    if w1 + w2 = 0 then pos
    else
      let pos1 := if p1 ∈ pins then pos
        else fupd pos p1
          ⟨(pos p1).x + dx * diff * w1,
           (pos p1).y + dy * diff * w1,
           (pos p1).z + dz * diff * w1⟩
      if p2 ∈ pins then pos1
      else fupd pos1 p2
        ⟨(pos1 p2).x - dx * diff * w2,
         (pos1 p2).y - dy * diff * w2,
         (pos1 p2).z - dz * diff * w2⟩

/-- One step of the floor pass of the earlier variant: hard clamp at
`y = -20`, no friction. -/
noncomputable def floorVertex0 (st : VState) (i : ℕ) : VState :=
  if (st.positions i).y < -20 then
    { st with
      positions := fupd st.positions i
        ⟨(st.positions i).x, -20, (st.positions i).z⟩ }
  else st

/-- `ClothPhysics.update` (earlier variant, floor at -20). -/
noncomputable def update0 (pins : List ℕ) (constraints : List Constraint)
    (wind : Vec3) (gravity now : ℝ) (count : ℕ) (st : VState) : VState :=
  let step := fun (s : VState) =>
    (List.range count).foldl floorVertex0
      { s with positions := constraints.foldl (relaxConstraint0 pins) s.positions }
  let st1 := (List.range count).foldl (integrateVertex0 pins wind gravity now) st
  step (step (step st1))

end ClothPhysics

namespace OrigamiSolver

/-- The side of a vertex with respect to the cut line: the cut normal is
`normalize(cross(axis, (0,0,1)))`, the signed value is the 2D projection
of `basePositions[idx] - origin` onto it, quantized to `{-1, 0, 1}` with
the `0.001` epsilon dead-zone. -/
noncomputable def getSide (basePositions : ℕ → Vec3) (origin axis : Vec3)
    (idx : ℕ) : ℤ :=
  let cutNormal := Vec3.normalize (Vec3.cross axis ⟨0, 0, 1⟩)
  let v := basePositions idx
  let val := (v.x - origin.x) * cutNormal.x + (v.y - origin.y) * cutNormal.y
  if val > 0.001 then 1 else if val < -0.001 then -1 else 0

/-- The inner `for (const n of ns)` loop of the flood fill: an unvisited
same-side neighbor is visited, selected and pushed; an unvisited side-0
neighbor is only marked visited (stopping traversal); an opposite-side
neighbor is left alone. -/
def processNeighbors (side : ℕ → ℤ) (s : ℤ) :
    List ℕ → List ℕ → Finset ℕ → Finset ℕ → List ℕ × Finset ℕ × Finset ℕ
  | [], queue, indices, visited => (queue, indices, visited)
  | n :: ns, queue, indices, visited =>
      if n ∈ visited then processNeighbors side s ns queue indices visited
      else if side n = s then
        processNeighbors side s ns (n :: queue) (insert n indices) (insert n visited)
      else if side n = 0 then
        processNeighbors side s ns queue indices (insert n visited)
      else processNeighbors side s ns queue indices visited

/-- All vertices mentioned in the adjacency lists. -/
def vertexUniverse (neighbors : List (List ℕ)) : Finset ℕ :=
  neighbors.foldr (fun l acc => l.toFinset ∪ acc) ∅

lemma toFinset_subset_vertexUniverse :
    ∀ {neighbors : List (List ℕ)} {l : List ℕ},
      l ∈ neighbors → l.toFinset ⊆ vertexUniverse neighbors := by
  intro neighbors
  induction neighbors with
  | nil => intro l hl; cases hl
  | cons hd tl ih =>
      intro l hl x hx
      simp only [vertexUniverse, List.foldr_cons] at *
      rcases List.mem_cons.mp hl with h | h
      · subst h; exact Finset.mem_union_left _ hx
      · exact Finset.mem_union_right _ (ih h hx)

lemma getD_subset_vertexUniverse (neighbors : List (List ℕ)) (curr : ℕ) :
    (neighbors.getD curr []).toFinset ⊆ vertexUniverse neighbors := by
  rcases lt_or_ge curr neighbors.length with h | h
  · have h1 : neighbors.getD curr [] = neighbors[curr] := by
      rw [List.getD_eq_getElem?_getD, List.getElem?_eq_getElem h]
      rfl
    rw [h1]
    exact toFinset_subset_vertexUniverse (List.getElem_mem h)
  · have h1 : neighbors.getD curr [] = [] := by
      rw [List.getD_eq_getElem?_getD, List.getElem?_eq_none h]
      rfl
    rw [h1]
    simp

lemma processNeighbors_queue_mono (side : ℕ → ℤ) (s : ℤ) :
    ∀ (ns queue : List ℕ) (indices visited : Finset ℕ) (x : ℕ),
      x ∈ queue → x ∈ (processNeighbors side s ns queue indices visited).1 := by
  intro ns
  induction ns with
  | nil => intro queue indices visited x hx; simpa [processNeighbors] using hx
  | cons n ns ih =>
      intro queue indices visited x hx
      simp only [processNeighbors]
      split
      · exact ih _ _ _ _ hx
      · split
        · exact ih _ _ _ _ (List.mem_cons_of_mem _ hx)
        · split
          · exact ih _ _ _ _ hx
          · exact ih _ _ _ _ hx

lemma processNeighbors_indices_mono (side : ℕ → ℤ) (s : ℤ) :
    ∀ (ns queue : List ℕ) (indices visited : Finset ℕ),
      indices ⊆ (processNeighbors side s ns queue indices visited).2.1 := by
  intro ns
  induction ns with
  | nil => intro queue indices visited; simp [processNeighbors]
  | cons n ns ih =>
      intro queue indices visited
      simp only [processNeighbors]
      split
      · exact ih _ _ _
      · split
        · exact fun x hx => ih _ _ _ (Finset.mem_insert_of_mem hx)
        · split
          · exact ih _ _ _
          · exact ih _ _ _

lemma processNeighbors_visited_mono (side : ℕ → ℤ) (s : ℤ) :
    ∀ (ns queue : List ℕ) (indices visited : Finset ℕ),
      visited ⊆ (processNeighbors side s ns queue indices visited).2.2 := by
  intro ns
  induction ns with
  | nil => intro queue indices visited; simp [processNeighbors]
  | cons n ns ih =>
      intro queue indices visited
      simp only [processNeighbors]
      split
      · exact ih _ _ _
      · split
        · exact fun x hx => ih _ _ _ (Finset.mem_insert_of_mem hx)
        · split
          · exact fun x hx => ih _ _ _ (Finset.mem_insert_of_mem hx)
          · exact ih _ _ _

lemma processNeighbors_visited_source (side : ℕ → ℤ) (s : ℤ) :
    ∀ (ns queue : List ℕ) (indices visited : Finset ℕ) (x : ℕ),
      x ∈ (processNeighbors side s ns queue indices visited).2.2 →
      x ∈ visited ∨ x ∈ ns := by
  intro ns
  induction ns with
  | nil => intro queue indices visited x hx; exact Or.inl (by simpa [processNeighbors] using hx)
  | cons n ns ih =>
      intro queue indices visited x hx
      simp only [processNeighbors] at hx
      split at hx
      · rcases ih _ _ _ _ hx with h | h
        · exact Or.inl h
        · exact Or.inr (List.mem_cons_of_mem _ h)
      · split at hx
        · rcases ih _ _ _ _ hx with h | h
          · rcases Finset.mem_insert.mp h with rfl | h
            · exact Or.inr (List.mem_cons_self _ _)
            · exact Or.inl h
          · exact Or.inr (List.mem_cons_of_mem _ h)
        · split at hx
          · rcases ih _ _ _ _ hx with h | h
            · rcases Finset.mem_insert.mp h with rfl | h
              · exact Or.inr (List.mem_cons_self _ _)
              · exact Or.inl h
            · exact Or.inr (List.mem_cons_of_mem _ h)
          · rcases ih _ _ _ _ hx with h | h
            · exact Or.inl h
            · exact Or.inr (List.mem_cons_of_mem _ h)

lemma processNeighbors_length_card (side : ℕ → ℤ) (s : ℤ) :
    ∀ (ns queue : List ℕ) (indices visited : Finset ℕ),
      (processNeighbors side s ns queue indices visited).1.length + visited.card ≤
        queue.length + (processNeighbors side s ns queue indices visited).2.2.card := by
  intro ns
  induction ns with
  | nil => intro queue indices visited; simp [processNeighbors]
  | cons n ns ih =>
      intro queue indices visited
      simp only [processNeighbors]
      split
      · exact ih _ _ _
      · rename_i hnv
        split
        · have h := ih (n :: queue) (insert n indices) (insert n visited)
          rw [Finset.card_insert_of_not_mem hnv, List.length_cons] at h
          omega
        · split
          · have h := ih queue indices (insert n visited)
            rw [Finset.card_insert_of_not_mem hnv] at h
            omega
          · exact ih _ _ _

/-- The `while (queue.length > 0)` loop of the flood fill.  The JS array
is used as a stack (`push`/`pop` at the same end), modelled with the head
of the list as the top. `neighbors[curr]` for an out-of-range `curr` is
the undefined guard `if (!ns) continue`, modelled by `getD curr []`. -/
def floodLoop (side : ℕ → ℤ) (neighbors : List (List ℕ)) (s : ℤ) :
    List ℕ → Finset ℕ → Finset ℕ → Finset ℕ
  | [], indices, _ => indices
  | curr :: rest, indices, visited =>
      let r := processNeighbors side s (neighbors.getD curr []) rest indices visited
      floodLoop side neighbors s r.1 r.2.1 r.2.2
termination_by queue _ visited => (vertexUniverse neighbors \ visited).card + queue.length
decreasing_by
  have hsrc := processNeighbors_visited_source side s (neighbors.getD curr []) rest indices visited
  have hlen := processNeighbors_length_card side s (neighbors.getD curr []) rest indices visited
  have hsub : (processNeighbors side s (neighbors.getD curr []) rest indices visited).2.2 ⊆
      vertexUniverse neighbors ∪ visited := by
    intro x hx
    rcases hsrc x hx with h | h
    · exact Finset.mem_union_right _ h
    · exact Finset.mem_union_left _ (getD_subset_vertexUniverse neighbors curr (List.mem_toFinset.mpr h))
  have key : (vertexUniverse neighbors \
        (processNeighbors side s (neighbors.getD curr []) rest indices visited).2.2).card +
        (processNeighbors side s (neighbors.getD curr []) rest indices visited).2.2.card ≤
      (vertexUniverse neighbors \ visited).card + visited.card := by
    rw [Finset.card_sdiff_add_card, Finset.card_sdiff_add_card]
    exact Finset.card_le_card (by
      intro x hx
      rcases Finset.mem_union.mp hx with h | h
      · exact Finset.mem_union_left _ h
      · exact hsub h)
  simp only [List.length_cons]
  omega

/-- `OrigamiSolver.computeFoldIndices`: quantize the seed's side; a seed
on the line returns the empty set, otherwise flood-fill from the seed
(which is selected and marked visited before the loop). -/
noncomputable def computeFoldIndices (basePositions : ℕ → Vec3)
    (neighbors : List (List ℕ)) (origin axis : Vec3) (seedIdx : ℕ) : Finset ℕ :=
  let side := getSide basePositions origin axis
  let seedSide := side seedIdx
  if seedSide = 0 then ∅
  else floodLoop side neighbors seedSide [seedIdx] {seedIdx} {seedIdx}

/-- Directed adjacency as stored: `v` is listed among the neighbors of
`u`. -/
def Adj (neighbors : List (List ℕ)) (u v : ℕ) : Prop :=
  v ∈ neighbors.getD u []

/-- One traversal step of the same-side region: an adjacency edge whose
target lies on side `s`. -/
def SameSideStep (side : ℕ → ℤ) (s : ℤ) (neighbors : List (List ℕ))
    (u v : ℕ) : Prop :=
  Adj neighbors u v ∧ side v = s

/-- `v` is reachable from the seed through vertices of side `s`
(every vertex entered along the path lies on side `s`). -/
def SameSideReach (side : ℕ → ℤ) (s : ℤ) (neighbors : List (List ℕ))
    (seed v : ℕ) : Prop :=
  Relation.ReflTransGen (SameSideStep side s neighbors) seed v

/-- types.ts `Fold` record. -/
structure Fold where
  id : ℕ
  axis : Vec3
  origin : Vec3
  indices : Finset ℕ
  angle : ℝ
  targetAngle : ℝ
  inverted : Bool

/-- The body of the inner `for (const fold of folds)` loop of
`applyFolds`: if the vertex belongs to the fold, translate to the fold's
origin, axis-angle rotate, translate back, then add the `0.05` paper
thickness to `z`. -/
noncomputable def foldVertexStep (i : ℕ) (v : Vec3) (f : Fold) : Vec3 :=
  if i ∈ f.indices then
    let t1 := Vec3.sub v f.origin
    let t2 := Vec3.applyAxisAngle f.axis f.angle t1
    let t3 := Vec3.add t2 f.origin
    ⟨t3.x, t3.y, t3.z + 0.05⟩
  else v

/-- `OrigamiSolver.applyFolds`: the value written into the target buffer
at vertex `i` — start from the base position and run every fold of the
list in order over the working point. -/
noncomputable def applyFolds (basePositions : ℕ → Vec3) (folds : List Fold)
    (i : ℕ) : Vec3 :=
  folds.foldl (foldVertexStep i) (basePositions i)

/-- Modelled from the spec: rotation of a point about the line through
`origin` with direction `axis` by `angle` radians — "translate to origin,
axis-angle rotate, translate back". -/
noncomputable def rotateAboutLine (origin axis : Vec3) (angle : ℝ) (p : Vec3) : Vec3 :=
  Vec3.add (Vec3.applyAxisAngle axis angle (Vec3.sub p origin)) origin

/-- Modelled from the spec: the fixed out-of-plane paper-thickness
offset. -/
noncomputable def addThickness (p : Vec3) : Vec3 := ⟨p.x, p.y, p.z + 0.05⟩

/-- Modelled from the spec: one fold of the compositor contract — rotate
the working point about the fold's axis through its origin when the
vertex is a member, then add the thickness offset. -/
noncomputable def specFoldStep (i : ℕ) (v : Vec3) (f : Fold) : Vec3 :=
  if i ∈ f.indices then addThickness (rotateAboutLine f.origin f.axis f.angle v)
  else v

end OrigamiSolver

namespace OrigamiSolver

lemma processNeighbors_queue_source (side : ℕ → ℤ) (s : ℤ) :
    ∀ (ns queue : List ℕ) (indices visited : Finset ℕ) (x : ℕ),
      x ∈ (processNeighbors side s ns queue indices visited).1 →
      x ∈ queue ∨ x ∈ (processNeighbors side s ns queue indices visited).2.1 := by
  intro ns
  induction ns with
  | nil => intro queue indices visited x hx; exact Or.inl (by simpa [processNeighbors] using hx)
  | cons n ns ih =>
      intro queue indices visited x hx
      simp only [processNeighbors] at hx ⊢
      split at hx <;> rename_i h1
      · rw [if_pos h1]
        exact ih _ _ _ _ hx
      · rw [if_neg h1]
        split at hx <;> rename_i h2
        · rw [if_pos h2]
          rcases ih _ _ _ _ hx with h | h
          · rcases List.mem_cons.mp h with rfl | h
            · exact Or.inr (processNeighbors_indices_mono side s ns _ _ _ (Finset.mem_insert_self _ _))
            · exact Or.inl h
          · exact Or.inr h
        · rw [if_neg h2]
          split at hx <;> rename_i h3
          · rw [if_pos h3]
            exact ih _ _ _ _ hx
          · rw [if_neg h3]
            exact ih _ _ _ _ hx

lemma processNeighbors_indices_source (side : ℕ → ℤ) (s : ℤ) :
    ∀ (ns queue : List ℕ) (indices visited : Finset ℕ) (x : ℕ),
      x ∈ (processNeighbors side s ns queue indices visited).2.1 →
      x ∈ indices ∨ (x ∈ ns ∧ side x = s) := by
  intro ns
  induction ns with
  | nil => intro queue indices visited x hx; exact Or.inl (by simpa [processNeighbors] using hx)
  | cons n ns ih =>
      intro queue indices visited x hx
      simp only [processNeighbors] at hx
      split at hx
      · rcases ih _ _ _ _ hx with h | h
        · exact Or.inl h
        · exact Or.inr ⟨List.mem_cons_of_mem _ h.1, h.2⟩
      · split at hx <;> rename_i h2
        · rcases ih _ _ _ _ hx with h | h
          · rcases Finset.mem_insert.mp h with rfl | h
            · exact Or.inr ⟨List.mem_cons_self _ _, h2⟩
            · exact Or.inl h
          · exact Or.inr ⟨List.mem_cons_of_mem _ h.1, h.2⟩
        · split at hx
          · rcases ih _ _ _ _ hx with h | h
            · exact Or.inl h
            · exact Or.inr ⟨List.mem_cons_of_mem _ h.1, h.2⟩
          · rcases ih _ _ _ _ hx with h | h
            · exact Or.inl h
            · exact Or.inr ⟨List.mem_cons_of_mem _ h.1, h.2⟩

lemma processNeighbors_indices_sub_visited (side : ℕ → ℤ) (s : ℤ) :
    ∀ (ns queue : List ℕ) (indices visited : Finset ℕ),
      indices ⊆ visited →
      (processNeighbors side s ns queue indices visited).2.1 ⊆
        (processNeighbors side s ns queue indices visited).2.2 := by
  intro ns
  induction ns with
  | nil => intro queue indices visited h; simpa [processNeighbors] using h
  | cons n ns ih =>
      intro queue indices visited h
      simp only [processNeighbors]
      split
      · exact ih _ _ _ h
      · split
        · exact ih _ _ _ (Finset.insert_subset_insert _ h)
        · split
          · exact ih _ _ _ (h.trans (Finset.subset_insert _ _))
          · exact ih _ _ _ h

lemma processNeighbors_visited_side_indices (side : ℕ → ℤ) (s : ℤ) (hs : s ≠ 0) :
    ∀ (ns queue : List ℕ) (indices visited : Finset ℕ),
      (∀ x ∈ visited, side x = s → x ∈ indices) →
      ∀ x ∈ (processNeighbors side s ns queue indices visited).2.2,
        side x = s → x ∈ (processNeighbors side s ns queue indices visited).2.1 := by
  intro ns
  induction ns with
  | nil =>
      intro queue indices visited h x hx hside
      simp only [processNeighbors] at hx ⊢
      exact h x hx hside
  | cons n ns ih =>
      intro queue indices visited h x hx hside
      simp only [processNeighbors] at hx ⊢
      split at hx <;> rename_i h1
      · rw [if_pos h1]; exact ih _ _ _ h x hx hside
      · rw [if_neg h1]
        split at hx <;> rename_i h2
        · rw [if_pos h2]
          refine ih _ _ _ ?_ x hx hside
          intro y hy hys
          rcases Finset.mem_insert.mp hy with rfl | hy
          · exact Finset.mem_insert_self _ _
          · exact Finset.mem_insert_of_mem (h y hy hys)
        · rw [if_neg h2]
          split at hx <;> rename_i h3
          · rw [if_pos h3]
            refine ih _ _ _ ?_ x hx hside
            intro y hy hys
            rcases Finset.mem_insert.mp hy with rfl | hy
            · exact absurd (h3 ▸ hys) (Ne.symm hs)
            · exact h y hy hys
          · rw [if_neg h3]; exact ih _ _ _ h x hx hside

lemma processNeighbors_covers (side : ℕ → ℤ) (s : ℤ) :
    ∀ (ns queue : List ℕ) (indices visited : Finset ℕ) (n : ℕ),
      n ∈ ns → side n = s →
      n ∈ (processNeighbors side s ns queue indices visited).2.2 := by
  intro ns
  induction ns with
  | nil => intro _ _ _ n hn; cases hn
  | cons m ns ih =>
      intro queue indices visited n hn hside
      simp only [processNeighbors]
      rcases List.mem_cons.mp hn with rfl | hn
      · split <;> rename_i h1
        · exact processNeighbors_visited_mono side s ns _ _ _ h1
        · exact processNeighbors_visited_mono side s ns _ _ _ (Finset.mem_insert_self _ _)

      · split
        · exact ih _ _ _ _ hn hside
        · split
          · exact ih _ _ _ _ hn hside
          · split
            · exact ih _ _ _ _ hn hside
            · exact ih _ _ _ _ hn hside

lemma processNeighbors_indices_in_queue (side : ℕ → ℤ) (s : ℤ) :
    ∀ (ns queue : List ℕ) (indices visited : Finset ℕ) (x : ℕ),
      x ∈ (processNeighbors side s ns queue indices visited).2.1 →
      x ∈ indices ∨ x ∈ (processNeighbors side s ns queue indices visited).1 := by
  intro ns
  induction ns with
  | nil => intro queue indices visited x hx; exact Or.inl (by simpa [processNeighbors] using hx)
  | cons n ns ih =>
      intro queue indices visited x hx
      simp only [processNeighbors] at hx ⊢
      split at hx <;> rename_i h1
      · rw [if_pos h1]; exact ih _ _ _ _ hx
      · rw [if_neg h1]
        split at hx <;> rename_i h2
        · rw [if_pos h2]
          rcases ih _ _ _ _ hx with h | h
          · rcases Finset.mem_insert.mp h with rfl | h
            · exact Or.inr (processNeighbors_queue_mono side s ns _ _ _ _ (List.mem_cons_self _ _))
            · exact Or.inl h
          · exact Or.inr h
        · rw [if_neg h2]
          split at hx <;> rename_i h3
          · rw [if_pos h3]; exact ih _ _ _ _ hx
          · rw [if_neg h3]; exact ih _ _ _ _ hx

end OrigamiSolver

namespace OrigamiSolver

lemma floodLoop_correct (side : ℕ → ℤ) (nb : List (List ℕ)) (s : ℤ) (seed : ℕ)
    (hs0 : s ≠ 0) :
    ∀ (queue : List ℕ) (indices visited : Finset ℕ),
      seed ∈ indices →
      indices ⊆ visited →
      (∀ v ∈ visited, side v = s → v ∈ indices) →
      (∀ v ∈ indices, side v = s) →
      (∀ q ∈ queue, q ∈ indices) →
      (∀ v ∈ indices, SameSideReach side s nb seed v) →
      (∀ v ∈ indices, (∀ n, Adj nb v n → side n = s → n ∈ visited) ∨ v ∈ queue) →
      ∀ t, t ∈ floodLoop side nb s queue indices visited ↔
        (side t = s ∧ SameSideReach side s nb seed t) := by
  intro queue indices visited
  induction queue, indices, visited using floodLoop.induct side nb s with
  | case1 indices visited =>
      intro h0 h1a h1b h1c h2 h3 h4 t
      simp only [floodLoop]
      constructor
      · intro ht
        exact ⟨h1c t ht, h3 t ht⟩
      · rintro ⟨hts, hreach⟩
        clear hts
        induction hreach with
        | refl => exact h0
        | tail hab hstep ih =>
            rename_i b c
            have hb : b ∈ indices := ih
            rcases h4 b hb with hcl | hq
            · exact h1b c (hcl c hstep.1 hstep.2) hstep.2
            · cases hq
  | case2 curr rest indices visited r ih =>
      intro h0 h1a h1b h1c h2 h3 h4
      simp only [floodLoop]
      apply ih
      · exact processNeighbors_indices_mono side s _ _ _ _ h0
      · exact processNeighbors_indices_sub_visited side s _ _ _ _ h1a
      · exact processNeighbors_visited_side_indices side s hs0 _ _ _ _ h1b
      · intro v hv
        rcases processNeighbors_indices_source side s _ _ _ _ v hv with h | h
        · exact h1c v h
        · exact h.2
      · intro q hq
        rcases processNeighbors_queue_source side s _ _ _ _ q hq with h | h
        · exact processNeighbors_indices_mono side s _ _ _ _ (h2 q (List.mem_cons_of_mem _ h))
        · exact h
      · intro v hv
        rcases processNeighbors_indices_source side s _ _ _ _ v hv with h | h
        · exact h3 v h
        · have hcurr : SameSideReach side s nb seed curr :=
            h3 curr (h2 curr (List.mem_cons_self _ _))
          exact Relation.ReflTransGen.tail hcurr ⟨h.1, h.2⟩
      · intro v hv
        rcases processNeighbors_indices_in_queue side s _ _ _ _ v hv with h | h
        · rcases h4 v h with hcl | hq
          · exact Or.inl fun n hadj hside =>
              processNeighbors_visited_mono side s _ _ _ _ (hcl n hadj hside)
          · rcases List.mem_cons.mp hq with rfl | hq
            · exact Or.inl fun n hadj hside =>
                processNeighbors_covers side s _ _ _ _ n hadj hside
            · exact Or.inr (processNeighbors_queue_mono side s _ _ _ _ _ hq)
        · exact Or.inr h

end OrigamiSolver

namespace OrigamiSolver

lemma sameSideReach_side {side : ℕ → ℤ} {s : ℤ} {nb : List (List ℕ)}
    {seed t : ℕ} (h : SameSideReach side s nb seed t) (hseed : side seed = s) :
    side t = s := by
  induction h with
  | refl => exact hseed
  | tail _ hstep _ => exact hstep.2

/-- C4: for every base-position buffer, adjacency graph, origin, axis and
seed: a seed whose quantized side is 0 yields the empty set; otherwise
`computeFoldIndices` returns exactly the vertices reachable from the seed
through same-side vertices; every returned vertex's side equals the
seed's side; and no side-0 vertex is ever in the result. -/
theorem computeFoldIndices_partition (basePositions : ℕ → Vec3)
    (neighbors : List (List ℕ)) (origin axis : Vec3) (seedIdx : ℕ) :
    (getSide basePositions origin axis seedIdx = 0 →
      computeFoldIndices basePositions neighbors origin axis seedIdx = ∅)
    ∧ (getSide basePositions origin axis seedIdx ≠ 0 →
        ∀ v, v ∈ computeFoldIndices basePositions neighbors origin axis seedIdx ↔
          SameSideReach (getSide basePositions origin axis)
            (getSide basePositions origin axis seedIdx) neighbors seedIdx v)
    ∧ (∀ v ∈ computeFoldIndices basePositions neighbors origin axis seedIdx,
        getSide basePositions origin axis v = getSide basePositions origin axis seedIdx)
    ∧ (∀ v, getSide basePositions origin axis v = 0 →
        v ∉ computeFoldIndices basePositions neighbors origin axis seedIdx) := by
  set side := getSide basePositions origin axis with hside
  set s := side seedIdx with hs
  have hmain : s ≠ 0 →
      ∀ v, v ∈ computeFoldIndices basePositions neighbors origin axis seedIdx ↔
        SameSideReach side s neighbors seedIdx v := by
    intro hs0 v
    have hcfi : computeFoldIndices basePositions neighbors origin axis seedIdx =
        floodLoop side neighbors s [seedIdx] {seedIdx} {seedIdx} := by
      rw [computeFoldIndices]
      simp only [← hside, ← hs, if_neg hs0]
    rw [hcfi]
    have h := floodLoop_correct side neighbors s seedIdx hs0 [seedIdx] {seedIdx} {seedIdx}
      (Finset.mem_singleton_self _)
      (Finset.Subset.refl _)
      (fun v hv _ => hv)
      (fun v hv => by rw [Finset.mem_singleton.mp hv, ← hs])
      (fun q hq => by rw [List.mem_singleton.mp hq]; exact Finset.mem_singleton_self _)
      (fun v hv => by rw [Finset.mem_singleton.mp hv]; exact Relation.ReflTransGen.refl)
      (fun v hv => Or.inr (by rw [Finset.mem_singleton.mp hv]; exact List.mem_singleton_self _))
      v
    rw [h]
    constructor
    · exact fun hh => hh.2
    · intro hh
      exact ⟨sameSideReach_side hh hs.symm, hh⟩
  have hzero : s = 0 →
      computeFoldIndices basePositions neighbors origin axis seedIdx = ∅ := by
    intro h0
    rw [computeFoldIndices]
    simp only [← hside, ← hs, if_pos h0]
  have hsides : ∀ v ∈ computeFoldIndices basePositions neighbors origin axis seedIdx,
      side v = s := by
    intro v hv
    by_cases h0 : s = 0
    · rw [hzero h0] at hv
      cases Finset.not_mem_empty v hv
    · exact sameSideReach_side ((hmain h0 v).mp hv) hs.symm
  refine ⟨hzero, hmain, hsides, ?_⟩
  intro v hv0 hvmem
  by_cases h0 : s = 0
  · rw [hzero h0] at hvmem
    exact Finset.not_mem_empty v hvmem
  · exact h0 (hv0 ▸ (hsides v hvmem).symm)

end OrigamiSolver

namespace OrigamiSolver

/-- Concrete base positions for exercising the partitioner: vertices 0, 1
below the fold line, vertex 2 on it, vertex 3 above it. -/
noncomputable def c4BP : ℕ → Vec3 := fun i =>
  if i = 0 then ⟨0, -1, 0⟩
  else if i = 1 then ⟨1, -1, 0⟩
  else if i = 2 then ⟨0, 0, 0⟩
  else ⟨0, 1, 0⟩

/-- Concrete adjacency: 0—1, 0—2, 2—3. -/
def c4NB : List (List ℕ) := [[1, 2], [0], [0, 3], [2]]

def c4Origin : Vec3 := ⟨0, 0, 0⟩

def c4Axis : Vec3 := ⟨1, 0, 0⟩

lemma c4_cutNormal : Vec3.normalize (Vec3.cross c4Axis ⟨0, 0, 1⟩) = ⟨0, -1, 0⟩ := by
  have h1 : Vec3.cross c4Axis ⟨0, 0, 1⟩ = ⟨0, -1, 0⟩ := by
    simp only [c4Axis, Vec3.cross]
    norm_num
  rw [h1]
  have h2 : Vec3.length ⟨0, -1, 0⟩ = 1 := by
    simp only [Vec3.length]
    norm_num
  simp only [Vec3.normalize, h2]
  norm_num

lemma c4_side (i : ℕ) :
    getSide c4BP c4Origin c4Axis i =
      if -(c4BP i).y > 0.001 then 1 else if -(c4BP i).y < -0.001 then -1 else 0 := by
  simp only [getSide, c4_cutNormal, c4Origin]
  norm_num

lemma c4_side_0 : getSide c4BP c4Origin c4Axis 0 = 1 := by
  rw [c4_side]
  norm_num [c4BP]

lemma c4_side_1 : getSide c4BP c4Origin c4Axis 1 = 1 := by
  rw [c4_side]
  norm_num [c4BP]

/-- Witness for C4: on the concrete mesh the seed 0 is off the line and
vertex 1, its same-side neighbor, is in the returned partition. -/
theorem computeFoldIndices_partition_witness :
    getSide c4BP c4Origin c4Axis 0 ≠ 0 ∧
      1 ∈ computeFoldIndices c4BP c4NB c4Origin c4Axis 0 := by
  have hne : getSide c4BP c4Origin c4Axis 0 ≠ 0 := by
    rw [c4_side_0]; decide
  refine ⟨hne, ?_⟩
  refine ((computeFoldIndices_partition c4BP c4NB c4Origin c4Axis 0).2.1 hne 1).mpr ?_
  refine Relation.ReflTransGen.single ⟨?_, c4_side_1.trans c4_side_0.symm⟩
  show (1 : ℕ) ∈ c4NB.getD 0 []
  decide

lemma foldVertexStep_eq_spec (i : ℕ) (v : Vec3) (f : Fold) :
    foldVertexStep i v f = specFoldStep i v f := rfl

lemma foldl_foldVertexStep_of_not_mem (i : ℕ) :
    ∀ (folds : List Fold) (v : Vec3), (∀ f ∈ folds, i ∉ f.indices) →
      folds.foldl (foldVertexStep i) v = v := by
  intro folds
  induction folds with
  | nil => intro v _; rfl
  | cons f fs ih =>
      intro v h
      rw [List.foldl_cons]
      have hf : foldVertexStep i v f = v := by
        rw [foldVertexStep, if_neg (h f (List.mem_cons_self _ _))]
      rw [hf]
      exact ih v fun g hg => h g (List.mem_cons_of_mem _ hg)

/-- C5: `applyFolds` writes, for each vertex `i`, the point obtained from
`basePositions i` by running the folds in list order — each fold whose
member set contains `i` rotates the working point about the fold's axis
through its origin (translate, axis-angle rotate, translate back) and
adds the 0.05 out-of-plane offset; a vertex in no fold's member set gets
its base position back; and a fold appended at the end acts on the
already-folded position. -/
theorem applyFolds_spec (basePositions : ℕ → Vec3) (folds : List Fold) (i : ℕ) :
    applyFolds basePositions folds i =
      folds.foldl (specFoldStep i) (basePositions i)
    ∧ ((∀ f ∈ folds, i ∉ f.indices) → applyFolds basePositions folds i = basePositions i)
    ∧ (∀ f, applyFolds basePositions (folds ++ [f]) i =
        foldVertexStep i (applyFolds basePositions folds i) f) := by
  refine ⟨?_, ?_, ?_⟩
  · rw [applyFolds]
    have h : foldVertexStep i = specFoldStep i := by
      funext v f
      exact foldVertexStep_eq_spec i v f
    rw [h]
  · intro h
    rw [applyFolds]
    exact foldl_foldVertexStep_of_not_mem i folds (basePositions i) h
  · intro f
    simp [applyFolds, List.foldl_append]

/-- Witness for C5: a concrete fold whose member set misses vertex 1
leaves vertex 1 at its base position. -/
theorem applyFolds_spec_witness :
    (∀ f ∈ [Fold.mk 0 ⟨1, 0, 0⟩ ⟨0, 0, 0⟩ {0} Real.pi Real.pi false],
        (1 : ℕ) ∉ f.indices) ∧
      applyFolds c4BP [Fold.mk 0 ⟨1, 0, 0⟩ ⟨0, 0, 0⟩ {0} Real.pi Real.pi false] 1 =
        c4BP 1 := by
  have h : ∀ f ∈ [Fold.mk 0 ⟨1, 0, 0⟩ ⟨0, 0, 0⟩ {0} Real.pi Real.pi false],
      (1 : ℕ) ∉ f.indices := by
    intro f hf
    rw [List.mem_singleton.mp hf]
    decide
  exact ⟨h, (applyFolds_spec c4BP _ 1).2.1 h⟩

end OrigamiSolver

namespace OrigamiSolver

lemma applyAxisAngle_x_pi (v : Vec3) :
    Vec3.applyAxisAngle ⟨1, 0, 0⟩ Real.pi v = ⟨v.x, -v.y, -v.z⟩ := by
  simp only [Vec3.applyAxisAngle, Real.sin_pi_div_two, Real.cos_pi_div_two]
  norm_num
  constructor <;> ring

/-- A half-turn fold about the x-axis through the plane origin,
containing vertex 0. -/
noncomputable def c8F1 : Fold := ⟨0, ⟨1, 0, 0⟩, ⟨0, 0, 0⟩, {0}, Real.pi, Real.pi, false⟩

/-- A half-turn fold about the parallel line through `(0, 1, 0)`, also
containing vertex 0. -/
noncomputable def c8F2 : Fold := ⟨1, ⟨1, 0, 0⟩, ⟨0, 1, 0⟩, {0}, Real.pi, Real.pi, false⟩

noncomputable def c8Base : ℕ → Vec3 := fun _ => ⟨0, 0, 0⟩

lemma c8_first : applyFolds c8Base [c8F1, c8F2] 0 = ⟨0, 2, 0⟩ := by
  simp only [applyFolds, List.foldl_cons, List.foldl_nil, foldVertexStep,
    c8F1, c8F2, c8Base, Finset.mem_singleton, if_pos rfl, Vec3.sub, Vec3.add]
  norm_num [applyAxisAngle_x_pi]

lemma c8_second : applyFolds c8Base [c8F2, c8F1] 0 = ⟨0, -2, 0⟩ := by
  simp only [applyFolds, List.foldl_cons, List.foldl_nil, foldVertexStep,
    c8F1, c8F2, c8Base, Finset.mem_singleton, if_pos rfl, Vec3.sub, Vec3.add]
  norm_num [applyAxisAngle_x_pi]

/-- C8: two concrete folds with overlapping member sets for which
`applyFolds` gives different results in the two list orders — fold
application is not commutative. -/
theorem applyFolds_not_commutative :
    applyFolds c8Base [c8F1, c8F2] 0 ≠ applyFolds c8Base [c8F2, c8F1] 0 := by
  rw [c8_first, c8_second]
  intro h
  have hy := congrArg Vec3.y h
  norm_num at hy

end OrigamiSolver

lemma fupd_same (f : ℕ → Vec3) (i : ℕ) (v : Vec3) : fupd f i v i = v := by
  simp [fupd]

lemma fupd_ne (f : ℕ → Vec3) (i : ℕ) (v : Vec3) {j : ℕ} (h : j ≠ i) :
    fupd f i v j = f j := by
  simp [fupd, h]

lemma foldl_preserve {α β : Type} (step : α → β → α) (P : α → Prop)
    (hstep : ∀ a b, P a → P (step a b)) :
    ∀ (l : List β) (s : α), P s → P (l.foldl step s) := by
  intro l
  induction l with
  | nil => intro s hs; exact hs
  | cons b bs ih => intro s hs; exact ih _ (hstep s b hs)

lemma foldl_establish {α β : Type} (step : α → β → α) (P : α → Prop) (v : β)
    (hset : ∀ a, P (step a v))
    (hstep : ∀ a b, P a → P (step a b)) :
    ∀ (l : List β) (s : α), v ∈ l → P (l.foldl step s) := by
  intro l s hv
  obtain ⟨l1, l2, rfl⟩ := List.append_of_mem hv
  rw [List.foldl_append, List.foldl_cons]
  exact foldl_preserve step P hstep l2 _ (hset _)

namespace ClothPhysics

lemma integrateVertex_apply_ne (pins : List ℕ) (ii : Option ℕ) (ip : Vec3)
    (wind : Vec3) (gravity now : ℝ) (st : VState) (i : ℕ) {p : ℕ} (h : p ≠ i) :
    (integrateVertex pins ii ip wind gravity now st i).positions p = st.positions p ∧
    (integrateVertex pins ii ip wind gravity now st i).prevPositions p = st.prevPositions p := by
  rw [integrateVertex]
  split
  · exact ⟨rfl, rfl⟩
  · split
    · exact ⟨fupd_ne _ _ _ h, fupd_ne _ _ _ h⟩
    · exact ⟨fupd_ne _ _ _ h, fupd_ne _ _ _ h⟩

lemma integrateVertex_pinned (pins : List ℕ) (ii : Option ℕ) (ip : Vec3)
    (wind : Vec3) (gravity now : ℝ) (st : VState) (i : ℕ) {p : ℕ} (hp : p ∈ pins) :
    (integrateVertex pins ii ip wind gravity now st i).positions p = st.positions p ∧
    (integrateVertex pins ii ip wind gravity now st i).prevPositions p = st.prevPositions p := by
  by_cases hip : i ∈ pins
  · by_cases hpi : p = i
    · rw [integrateVertex, if_pos hip]
      exact ⟨rfl, rfl⟩
    · exact integrateVertex_apply_ne pins ii ip wind gravity now st i hpi
  · have : p ≠ i := fun h => hip (h ▸ hp)
    exact integrateVertex_apply_ne pins ii ip wind gravity now st i this

lemma relaxConstraint_apply_pinned (pins : List ℕ) (ii : Option ℕ)
    (pos : ℕ → Vec3) (cst : Constraint) {p : ℕ}
    (hp : p ∈ pins ∨ ii = some p) :
    relaxConstraint pins ii pos cst p = pos p := by
  have hp1 : p = cst.1 → (cst.1 ∈ pins ∨ ii = some cst.1) := fun h => h ▸ hp
  have hp2 : p = cst.2.1 → (cst.2.1 ∈ pins ∨ ii = some cst.2.1) := fun h => h ▸ hp
  simp only [relaxConstraint]
  by_cases hd : currDistance pos cst.1 cst.2.1 = 0
  · rw [if_pos hd]
  · rw [if_neg hd]
    by_cases h1 : cst.1 ∈ pins ∨ ii = some cst.1
    · by_cases h2 : cst.2.1 ∈ pins ∨ ii = some cst.2.1
      · simp only [if_pos h1, if_pos h2, ite_self]
      · have hne2 : p ≠ cst.2.1 := fun h => h2 (hp2 h)
        simp only [if_pos h1, if_neg h2]
        rw [if_neg (by norm_num : ¬((0 : ℝ) + 0.5 = 0))]
        exact fupd_ne _ _ _ hne2
    · have hne1 : p ≠ cst.1 := fun h => h1 (hp1 h)
      by_cases h2 : cst.2.1 ∈ pins ∨ ii = some cst.2.1
      · simp only [if_neg h1, if_pos h2]
        rw [if_neg (by norm_num : ¬((0.5 : ℝ) + 0 = 0))]
        exact fupd_ne _ _ _ hne1
      · have hne2 : p ≠ cst.2.1 := fun h => h2 (hp2 h)
        simp only [if_neg h1, if_neg h2]
        rw [if_neg (by norm_num : ¬((0.5 : ℝ) + 0.5 = 0))]
        rw [fupd_ne _ _ _ hne2, fupd_ne _ _ _ hne1]

end ClothPhysics

namespace ClothPhysics

lemma floorVertex_apply_ne (st : VState) (i : ℕ) {p : ℕ} (h : p ≠ i) :
    (floorVertex st i).positions p = st.positions p ∧
    (floorVertex st i).prevPositions p = st.prevPositions p := by
  rw [floorVertex]
  split
  · exact ⟨fupd_ne _ _ _ h, fupd_ne _ _ _ h⟩
  · exact ⟨rfl, rfl⟩

lemma floorVertex_apply_nonneg (st : VState) (i : ℕ) {p : ℕ}
    (hy : 0 ≤ (st.positions p).y) :
    (floorVertex st i).positions p = st.positions p := by
  by_cases hpi : p = i
  · subst hpi
    rw [floorVertex]
    split
    · rename_i h
      exact absurd hy (not_le.mpr h)
    · rfl
  · exact (floorVertex_apply_ne st i hpi).1

lemma floorVertex_y_clamp (st : VState) (i : ℕ) (h : (st.positions i).y < 0) :
    ((floorVertex st i).positions i).y = 0 := by
  rw [floorVertex, if_pos h]
  simp [fupd_same]

lemma floorVertex_y_keep (st : VState) (i : ℕ) (h : ¬(st.positions i).y < 0) :
    floorVertex st i = st := by
  rw [floorVertex, if_neg h]

/-- A pinned vertex whose position starts at or above the floor is left
exactly in place by one call to `update`: integration skips it,
relaxation gives it weight zero and never writes it, and the floor pass
leaves a non-negative height untouched. -/
lemma update_positions_pinned (pins : List ℕ) (cs : List Constraint)
    (ii : Option ℕ) (ip wind : Vec3) (gravity now : ℝ) (count : ℕ)
    (st : VState) {p : ℕ} (hp : p ∈ pins) (hy : 0 ≤ (st.positions p).y) :
    (update pins cs ii ip wind gravity now count st).positions p = st.positions p := by
  set v0 := st.positions p with hv0
  have hint : ∀ (s : VState) (i : ℕ), s.positions p = v0 →
      (integrateVertex pins ii ip wind gravity now s i).positions p = v0 :=
    fun s i h => (integrateVertex_pinned pins ii ip wind gravity now s i hp).1.trans h
  have hrelax : ∀ s : VState, s.positions p = v0 →
      (relaxPass pins ii cs s).positions p = v0 := by
    intro s h
    exact foldl_preserve (relaxConstraint pins ii) (fun pos => pos p = v0)
      (fun pos cst hh => (relaxConstraint_apply_pinned pins ii pos cst (Or.inl hp)).trans hh)
      cs s.positions h
  have hfloor : ∀ s : VState, s.positions p = v0 →
      (floorPass count s).positions p = v0 := by
    intro s h
    exact foldl_preserve floorVertex (fun s' => s'.positions p = v0)
      (fun s' i hh =>
        (floorVertex_apply_nonneg s' i (by rw [hh]; exact hy)).trans hh)
      (List.range count) s h
  have hit : ∀ s : VState, s.positions p = v0 →
      (relaxIteration pins ii cs count s).positions p = v0 :=
    fun s h => hfloor _ (hrelax s h)
  have h1 : ((List.range count).foldl (integrateVertex pins ii ip wind gravity now) st).positions p = v0 :=
    foldl_preserve (integrateVertex pins ii ip wind gravity now)
      (fun s => s.positions p = v0) (fun s i hh => hint s i hh)
      (List.range count) st rfl
  exact hit _ (hit _ (hit _ h1))

/-- C1 (amended): a pinned vertex whose stored position is at or above
the floor (`y ≥ 0`) is never changed by `update`, in any of its three
components, across any number of calls, for every wind vector, gravity
value and clock reading.  (A pinned vertex strictly below the floor is
clamped by the floor pass — see the counterexample.) -/
theorem update_pinned_positions_fixed (pins : List ℕ) (cs : List Constraint)
    (ii : Option ℕ) (ip : Vec3) (count : ℕ) (st : VState) (p : ℕ)
    (hp : p ∈ pins) (hy : 0 ≤ (st.positions p).y) :
    ∀ calls : List (Vec3 × ℝ × ℝ),
      ((calls.foldl (fun s c => update pins cs ii ip c.1 c.2.1 c.2.2 count s) st).positions p)
        = st.positions p := by
  intro calls
  refine foldl_preserve _ (fun s => s.positions p = st.positions p) ?_ calls st rfl
  intro s c hs
  rw [update_positions_pinned pins cs ii ip c.1 c.2.1 c.2.2 count s hp (by rw [hs]; exact hy), hs]

/-- A one-vertex state with the pinned vertex resting above the floor. -/
noncomputable def c1St : VState :=
  ⟨fun _ => ⟨2, 1, 3⟩, fun _ => ⟨2, 1, 3⟩⟩

/-- Witness for C1: the concrete pinned vertex at height 1 is unmoved by
a call with nonzero wind and gravity. -/
theorem update_pinned_positions_fixed_witness :
    (0 ∈ [0] ∧ 0 ≤ (c1St.positions 0).y) ∧
      (([(⟨1, 0, 2⟩, -98 / 10, 42)] :
          List (Vec3 × ℝ × ℝ)).foldl
        (fun s c => update [0] [] none ⟨0, 0, 0⟩ c.1 c.2.1 c.2.2 1 s) c1St).positions 0
        = c1St.positions 0 := by
  refine ⟨⟨by decide, by norm_num [c1St]⟩, ?_⟩
  exact update_pinned_positions_fixed [0] [] none ⟨0, 0, 0⟩ 1 c1St 0
    (by decide) (by norm_num [c1St]) _

/-- A one-vertex state whose pinned vertex starts below the floor. -/
noncomputable def c1BelowSt : VState :=
  ⟨fun _ => ⟨0, -1, 0⟩, fun _ => ⟨0, -1, 0⟩⟩

/-- Counterexample to C1 as stated: a pinned vertex below the floor is
clamped up to the floor by `update`, so its position does change. -/
theorem update_pinned_below_floor_cex :
    (update [0] [] none ⟨0, 0, 0⟩ ⟨0, 0, 0⟩ 0 0 1 c1BelowSt).positions 0 ≠
      c1BelowSt.positions 0 := by
  have hlt : (c1BelowSt.positions 0).y < 0 := by norm_num [c1BelowSt]
  have hy0 : ((floorVertex c1BelowSt 0).positions 0).y = 0 :=
    floorVertex_y_clamp _ _ hlt
  have hkeep : floorVertex (floorVertex c1BelowSt 0) 0 = floorVertex c1BelowSt 0 :=
    floorVertex_y_keep _ _ (by rw [hy0]; norm_num)
  have key : update [0] [] none ⟨0, 0, 0⟩ ⟨0, 0, 0⟩ 0 0 1 c1BelowSt =
      floorVertex (floorVertex (floorVertex c1BelowSt 0) 0) 0 := rfl
  rw [key, hkeep, hkeep]
  intro h
  have hy := congrArg Vec3.y h
  rw [hy0] at hy
  norm_num [c1BelowSt] at hy

end ClothPhysics

namespace ClothPhysics

lemma integrateVertex_override (pins : List ℕ) (ip wind : Vec3)
    (gravity now : ℝ) (st : VState) {v : ℕ} (hnp : v ∉ pins) :
    (integrateVertex pins (some v) ip wind gravity now st v).positions v = ip := by
  rw [integrateVertex, if_neg hnp, if_pos rfl]
  exact fupd_same _ _ _

/-- C2 (amended): while an override on vertex `v` is active, `v` is not
pinned, `v` is a vertex of the mesh, and the target height is at or above
the floor, `positions v` equals the override target exactly after every
call to `update` — the override branch snaps it, constraint relaxation
treats it as infinite mass and never writes it, and the floor pass leaves
it alone.  (If `v` is in the pin set, or the target is below the floor,
the equality fails — see the counterexample.) -/
theorem update_override_exact (pins : List ℕ) (cs : List Constraint)
    (ip wind : Vec3) (gravity now : ℝ) (count : ℕ) (st : VState) (v : ℕ)
    (hnp : v ∉ pins) (hvc : v < count) (hy : 0 ≤ ip.y) :
    (update pins cs (some v) ip wind gravity now count st).positions v = ip := by
  have hset : ∀ s : VState,
      (integrateVertex pins (some v) ip wind gravity now s v).positions v = ip :=
    fun s => integrateVertex_override pins ip wind gravity now s hnp
  have hpres : ∀ (s : VState) (i : ℕ), s.positions v = ip →
      (integrateVertex pins (some v) ip wind gravity now s i).positions v = ip := by
    intro s i h
    by_cases hiv : i = v
    · subst hiv; exact hset s
    · exact ((integrateVertex_apply_ne pins (some v) ip wind gravity now s i
        (fun hh => hiv hh.symm)).1).trans h
  have h1 : ((List.range count).foldl
      (integrateVertex pins (some v) ip wind gravity now) st).positions v = ip :=
    foldl_establish _ (fun s => s.positions v = ip) v hset hpres
      (List.range count) st (List.mem_range.mpr hvc)
  have hrelax : ∀ s : VState, s.positions v = ip →
      (relaxPass pins (some v) cs s).positions v = ip := by
    intro s h
    exact foldl_preserve (relaxConstraint pins (some v)) (fun pos => pos v = ip)
      (fun pos cst hh =>
        (relaxConstraint_apply_pinned pins (some v) pos cst (Or.inr rfl)).trans hh)
      cs s.positions h
  have hfloor : ∀ s : VState, s.positions v = ip →
      (floorPass count s).positions v = ip := by
    intro s h
    exact foldl_preserve floorVertex (fun s' => s'.positions v = ip)
      (fun s' i hh =>
        (floorVertex_apply_nonneg s' i (by rw [hh]; exact hy)).trans hh)
      (List.range count) s h
  have hit : ∀ s : VState, s.positions v = ip →
      (relaxIteration pins (some v) cs count s).positions v = ip :=
    fun s h => hfloor _ (hrelax s h)
  exact hit _ (hit _ (hit _ h1))

/-- Witness for C2: on a one-vertex mesh with an empty pin set, the
overridden vertex lands exactly on the concrete target `(5, 6, 7)`. -/
theorem update_override_exact_witness :
    ((0 : ℕ) ∉ ([] : List ℕ) ∧ 0 < 1 ∧ (0 : ℝ) ≤ (Vec3.mk 5 6 7).y) ∧
      (update [] [] (some 0) ⟨5, 6, 7⟩ ⟨1, 0, 2⟩ (-5) 42 1 c1St).positions 0 = ⟨5, 6, 7⟩ := by
  refine ⟨⟨by decide, by decide, by norm_num⟩, ?_⟩
  exact update_override_exact [] [] ⟨5, 6, 7⟩ ⟨1, 0, 2⟩ (-5) 42 1 c1St 0
    (by decide) (by decide) (by norm_num)

/-- Counterexample to C2 as stated: when the overridden vertex is also in
the pin set, `update` never applies the target — the vertex stays at its
prior position `(2, 1, 3)` instead of the active target `(5, 6, 7)`. -/
theorem update_override_pinned_cex :
    (update [0] [] (some 0) ⟨5, 6, 7⟩ ⟨0, 0, 0⟩ 0 0 1 c1St).positions 0 ≠ ⟨5, 6, 7⟩ := by
  rw [update_positions_pinned [0] [] (some 0) ⟨5, 6, 7⟩ ⟨0, 0, 0⟩ 0 0 1 c1St
    (by decide) (by norm_num [c1St])]
  intro h
  have hy := congrArg Vec3.y h
  norm_num [c1St] at hy

/-- C9 (amended): when the override vertex `v` is also in the pin set,
the pin check short-circuits the integration loop before the override
branch: the result of `update` does not depend on the override target at
all, and `v` keeps its prior position whenever that position is at or
above the floor (a below-floor pinned vertex is still clamped by the
floor pass — see the counterexample). -/
theorem update_pinned_override_ignored (pins : List ℕ) (cs : List Constraint)
    (wind : Vec3) (gravity now : ℝ) (count : ℕ) (st : VState) (v : ℕ)
    (hv : v ∈ pins) :
    (∀ ip1 ip2 : Vec3, update pins cs (some v) ip1 wind gravity now count st =
        update pins cs (some v) ip2 wind gravity now count st)
    ∧ (0 ≤ (st.positions v).y →
        ∀ ip : Vec3,
          (update pins cs (some v) ip wind gravity now count st).positions v =
            st.positions v) := by
  constructor
  · intro ip1 ip2
    have hIV : integrateVertex pins (some v) ip1 wind gravity now =
        integrateVertex pins (some v) ip2 wind gravity now := by
      funext s i
      by_cases hi : i ∈ pins
      · rw [integrateVertex, if_pos hi, integrateVertex, if_pos hi]
      · have hvi : ¬(some v = some i) := by
          intro h
          exact hi ((Option.some_injective _ h) ▸ hv)
        rw [integrateVertex, if_neg hi, if_neg hvi,
          integrateVertex, if_neg hi, if_neg hvi]
    simp only [update, hIV]
  · intro hy ip
    exact update_positions_pinned pins cs (some v) ip wind gravity now count st hv hy

/-- Witness for C9: with vertex 0 pinned and overridden, a call with the
target `(5, 6, 7)` leaves the vertex at its prior position `(2, 1, 3)`. -/
theorem update_pinned_override_ignored_witness :
    (0 ∈ [0]) ∧
      (update [0] [] (some 0) ⟨5, 6, 7⟩ ⟨0, 0, 0⟩ 0 0 1 c1St).positions 0 =
        c1St.positions 0 := by
  refine ⟨by decide, ?_⟩
  exact (update_pinned_override_ignored [0] [] ⟨0, 0, 0⟩ 0 0 1 c1St 0
    (by decide)).2 (by norm_num [c1St]) ⟨5, 6, 7⟩

/-- Counterexample to C9 as stated: a pinned override vertex starting
below the floor does not keep its prior position — the floor pass clamps
its height to 0, so the result differs from both the prior position and
the override target. -/
theorem update_pinned_override_below_floor_cex :
    (update [0] [] (some 0) ⟨5, 6, 7⟩ ⟨0, 0, 0⟩ 0 0 1 c1BelowSt).positions 0 ≠
        c1BelowSt.positions 0 ∧
      (update [0] [] (some 0) ⟨5, 6, 7⟩ ⟨0, 0, 0⟩ 0 0 1 c1BelowSt).positions 0 ≠
        ⟨5, 6, 7⟩ := by
  have hlt : (c1BelowSt.positions 0).y < 0 := by norm_num [c1BelowSt]
  have hy0 : ((floorVertex c1BelowSt 0).positions 0).y = 0 :=
    floorVertex_y_clamp _ _ hlt
  have hkeep : floorVertex (floorVertex c1BelowSt 0) 0 = floorVertex c1BelowSt 0 :=
    floorVertex_y_keep _ _ (by rw [hy0]; norm_num)
  have key : update [0] [] (some 0) ⟨5, 6, 7⟩ ⟨0, 0, 0⟩ 0 0 1 c1BelowSt =
      floorVertex (floorVertex (floorVertex c1BelowSt 0) 0) 0 := rfl
  rw [key, hkeep, hkeep]
  constructor
  · intro h
    have hy := congrArg Vec3.y h
    rw [hy0] at hy
    norm_num [c1BelowSt] at hy
  · intro h
    have hy := congrArg Vec3.y h
    rw [hy0] at hy
    norm_num at hy

end ClothPhysics

namespace ClothPhysics

lemma foldl_floorVertex_nonneg :
    ∀ (l : List ℕ) (st : VState) (i : ℕ),
      (i ∈ l ∨ 0 ≤ (st.positions i).y) →
      0 ≤ ((l.foldl floorVertex st).positions i).y := by
  intro l
  induction l with
  | nil =>
      intro st i h
      rcases h with h | h
      · cases h
      · exact h
  | cons j rest ih =>
      intro st i h
      rw [List.foldl_cons]
      apply ih
      by_cases hir : i ∈ rest
      · exact Or.inl hir
      · right
        rcases h with h | h
        · rcases List.mem_cons.mp h with rfl | h2
          · by_cases hc : (st.positions i).y < 0
            · exact le_of_eq (floorVertex_y_clamp st i hc).symm
            · rw [floorVertex_y_keep st i hc]
              exact not_lt.mp hc
          · exact absurd h2 hir
        · by_cases hji : i = j
          · subst hji
            rw [floorVertex_y_keep st i (not_lt.mpr h)]
            exact h
          · rw [(floorVertex_apply_ne st j hji).1]
            exact h

lemma floorPass_nonneg (count : ℕ) (st : VState) :
    ∀ i, i < count → 0 ≤ ((floorPass count st).positions i).y :=
  fun i hi =>
    foldl_floorVertex_nonneg (List.range count) st i (Or.inl (List.mem_range.mpr hi))

lemma floorVertex0_apply_ne (st : VState) (i : ℕ) {p : ℕ} (h : p ≠ i) :
    (floorVertex0 st i).positions p = st.positions p := by
  rw [floorVertex0]
  split
  · exact fupd_ne _ _ _ h
  · rfl

lemma floorVertex0_y_clamp (st : VState) (i : ℕ) (h : (st.positions i).y < -20) :
    ((floorVertex0 st i).positions i).y = -20 := by
  rw [floorVertex0, if_pos h]
  simp [fupd_same]

lemma floorVertex0_y_keep (st : VState) (i : ℕ) (h : ¬(st.positions i).y < -20) :
    floorVertex0 st i = st := by
  rw [floorVertex0, if_neg h]

lemma foldl_floorVertex0_ge :
    ∀ (l : List ℕ) (st : VState) (i : ℕ),
      (i ∈ l ∨ -20 ≤ (st.positions i).y) →
      -20 ≤ ((l.foldl floorVertex0 st).positions i).y := by
  intro l
  induction l with
  | nil =>
      intro st i h
      rcases h with h | h
      · cases h
      · exact h
  | cons j rest ih =>
      intro st i h
      rw [List.foldl_cons]
      apply ih
      by_cases hir : i ∈ rest
      · exact Or.inl hir
      · right
        rcases h with h | h
        · rcases List.mem_cons.mp h with rfl | h2
          · by_cases hc : (st.positions i).y < -20
            · exact le_of_eq (floorVertex0_y_clamp st i hc).symm
            · rw [floorVertex0_y_keep st i hc]
              exact not_lt.mp hc
          · exact absurd h2 hir
        · by_cases hji : i = j
          · subst hji
            rw [floorVertex0_y_keep st i (not_lt.mpr h)]
            exact h
          · rw [floorVertex0_apply_ne st j hji]
            exact h

/-- C3: after any call to `update` no vertex of the mesh has its vertical
coordinate below the floor — level 0 for the folding-solver variant,
level -20 for the earlier variant — because each variant ends with its
floor-clamp pass over every vertex. -/
theorem update_floor_invariant :
    (∀ (pins : List ℕ) (cs : List Constraint) (ii : Option ℕ) (ip wind : Vec3)
        (gravity now : ℝ) (count : ℕ) (st : VState) (i : ℕ), i < count →
        0 ≤ ((update pins cs ii ip wind gravity now count st).positions i).y)
    ∧ (∀ (pins : List ℕ) (cs : List Constraint) (wind : Vec3)
        (gravity now : ℝ) (count : ℕ) (st : VState) (i : ℕ), i < count →
        -20 ≤ ((update0 pins cs wind gravity now count st).positions i).y) := by
  constructor
  · intro pins cs ii ip wind gravity now count st i hi
    simp only [update, relaxIteration]
    exact floorPass_nonneg count _ i hi
  · intro pins cs wind gravity now count st i hi
    simp only [update0]
    exact foldl_floorVertex0_ge (List.range count) _ i
      (Or.inl (List.mem_range.mpr hi))

/-- Witness for C3: on the concrete one-vertex state starting below the
floor, the vertex ends at or above height 0 after `update`. -/
theorem update_floor_invariant_witness :
    (0 < 1) ∧
      0 ≤ ((update [] [] none ⟨0, 0, 0⟩ ⟨0, 0, 0⟩ 0 0 1 c1BelowSt).positions 0).y :=
  ⟨by decide,
    update_floor_invariant.1 [] [] none ⟨0, 0, 0⟩ ⟨0, 0, 0⟩ 0 0 1 c1BelowSt 0 (by decide)⟩

end ClothPhysics

namespace ClothPhysics

/-- C6: a constraint whose endpoints currently coincide (current distance
exactly zero) is skipped by the relaxation loop as a no-op: the position
buffer is returned unchanged and the branch computing
`diff = (currDist - rest) / currDist` is never taken. -/
theorem relaxConstraint_zero_dist (pins : List ℕ) (ii : Option ℕ)
    (pos : ℕ → Vec3) (p1 p2 : ℕ) (rest : ℝ)
    (h : currDistance pos p1 p2 = 0) :
    relaxConstraint pins ii pos (p1, p2, rest) = pos := by
  simp only [relaxConstraint]
  rw [if_pos h]

/-- A buffer whose vertices all coincide at `(3, 4, 5)`. -/
noncomputable def c6Pos : ℕ → Vec3 := fun _ => ⟨3, 4, 5⟩

/-- Witness for C6: two coincident endpoints have current distance zero
and the constraint between them is a no-op. -/
theorem relaxConstraint_zero_dist_witness :
    currDistance c6Pos 0 1 = 0 ∧
      relaxConstraint [] none c6Pos (0, 1, 7) = c6Pos := by
  have h : currDistance c6Pos 0 1 = 0 := by
    simp only [currDistance, c6Pos]
    norm_num
  exact ⟨h, relaxConstraint_zero_dist [] none c6Pos 0 1 7 h⟩

/-- C7: constraint construction walks the triangle index buffer three
indices at a time, emitting exactly the three edge constraints of each
triangle with no deduplication: a buffer of `3 * k` indices yields
exactly `3 * k` constraints, construction distributes over concatenated
triangle lists (so an edge shared by two triangles appears once per
triangle), and each triangle contributes its three edges in order. -/
theorem generateConstraints_per_triangle (pos : ℕ → Vec3) (k : ℕ)
    (indices : List ℕ) (h : indices.length = 3 * k) :
    (generateConstraints pos indices).length = 3 * k
    ∧ (∀ l2 : List ℕ, generateConstraints pos (indices ++ l2) =
        generateConstraints pos indices ++ generateConstraints pos l2)
    ∧ (∀ (a b c : ℕ) (rest : List ℕ),
        generateConstraints pos (a :: b :: c :: rest) =
          addConstraint pos a b :: addConstraint pos b c :: addConstraint pos c a ::
            generateConstraints pos rest) := by
  refine ⟨?_, ?_, fun a b c rest => rfl⟩
  · induction k generalizing indices with
    | zero =>
        match indices, h with
        | [], _ => rfl
    | succ k ih =>
        match indices, h with
        | a :: b :: c :: rest, h =>
            simp only [List.length_cons] at h
            have hr : rest.length = 3 * k := by omega
            rw [generateConstraints]
            simp only [List.length_cons, ih rest hr]
            omega
  · induction k generalizing indices with
    | zero =>
        match indices, h with
        | [], _ => intro l2; rfl
    | succ k ih =>
        match indices, h with
        | a :: b :: c :: rest, h =>
            intro l2
            simp only [List.length_cons] at h
            have hr : rest.length = 3 * k := by omega
            rw [List.cons_append, List.cons_append, List.cons_append,
              generateConstraints, generateConstraints, ih rest hr l2]
            rfl

/-- Witness for C7: the two-triangle buffer `[0,1,2, 2,1,3]`, whose
triangles share the edge between vertices 1 and 2, yields exactly six
constraints. -/
theorem generateConstraints_per_triangle_witness :
    ([0, 1, 2, 2, 1, 3] : List ℕ).length = 3 * 2 ∧
      (generateConstraints c6Pos [0, 1, 2, 2, 1, 3]).length = 3 * 2 :=
  ⟨by decide, (generateConstraints_per_triangle c6Pos 2 [0, 1, 2, 2, 1, 3] (by decide)).1⟩

end ClothPhysics

namespace ClothPhysics

/-- One free vertex at the origin, at rest. -/
noncomputable def c10St : VState :=
  ⟨fun _ => ⟨0, 0, 0⟩, fun _ => ⟨0, 0, 0⟩⟩

lemma c10_integrate_pos (wind : Vec3) (now : ℝ) :
    (integrateVertex [] none ⟨0, 0, 0⟩ wind 0 now c10St 0).positions 0 =
      ⟨0 + (0 - 0) * DRAG + wind.x * windFactor now 0 * TIMESTEP * TIMESTEP,
       0 + (0 - 0) * DRAG + 0 * TIMESTEP * TIMESTEP,
       0 + (0 - 0) * DRAG + wind.z * windFactor now 0 * TIMESTEP * TIMESTEP⟩ := by
  rw [integrateVertex, if_neg (by simp : ¬(0 : ℕ) ∈ ([] : List ℕ)),
    if_neg (by simp : ¬(none : Option ℕ) = some 0)]
  rfl

lemma c10_wf_pos : windFactor (100 * Real.pi) 0 = 1 := by
  rw [windFactor]
  have harg : (100 * Real.pi * 0.005 + 0 * 0.1 : ℝ) = Real.pi / 2 := by
    ring
  rw [harg, Real.sin_pi_div_two]
  norm_num

lemma c10_wf_neg : windFactor (-100 * Real.pi) 0 = 0 := by
  rw [windFactor]
  have harg : (-100 * Real.pi * 0.005 + 0 * 0.1 : ℝ) = -(Real.pi / 2) := by
    ring
  rw [harg, Real.sin_neg, Real.sin_pi_div_two]
  norm_num

lemma c10_floorPass_keep (s : VState) (h : (s.positions 0).y = 0) :
    floorPass 1 s = s := by
  show List.foldl floorVertex s [0] = s
  rw [List.foldl_cons, floorVertex_y_keep s 0 (by rw [h]; norm_num), List.foldl_nil]

/-- C10: when the wind vector has zero horizontal components, `update` is
a function of its explicit arguments alone — the clock reading cannot
influence the result, because the time-varying wind factor is multiplied
by zero; with a nonzero horizontal wind component the result genuinely
depends on the wall-clock reading made inside `update`, shown by two
concrete clock values giving different outputs from the same state. -/
theorem update_wind_clock_dependence :
    (∀ (pins : List ℕ) (cs : List Constraint) (ii : Option ℕ) (ip wind : Vec3)
        (gravity : ℝ) (count : ℕ) (st : VState),
        wind.x = 0 → wind.z = 0 →
        ∀ now1 now2 : ℝ,
          update pins cs ii ip wind gravity now1 count st =
            update pins cs ii ip wind gravity now2 count st)
    ∧ (update [] [] none ⟨0, 0, 0⟩ ⟨1, 0, 0⟩ 0 (100 * Real.pi) 1 c10St).positions 0 ≠
        (update [] [] none ⟨0, 0, 0⟩ ⟨1, 0, 0⟩ 0 (-100 * Real.pi) 1 c10St).positions 0 := by
  constructor
  · intro pins cs ii ip wind gravity count st hx hz now1 now2
    have hIV : integrateVertex pins ii ip wind gravity now1 =
        integrateVertex pins ii ip wind gravity now2 := by
      funext s i
      rw [integrateVertex, integrateVertex]
      by_cases hi : i ∈ pins
      · rw [if_pos hi, if_pos hi]
      · rw [if_neg hi, if_neg hi]
        by_cases hsi : ii = some i
        · rw [if_pos hsi, if_pos hsi]
        · rw [if_neg hsi, if_neg hsi]
          simp only [hx, hz, zero_mul]
    simp only [update, hIV]
  · have key : ∀ now : ℝ,
        update [] [] none ⟨0, 0, 0⟩ ⟨1, 0, 0⟩ 0 now 1 c10St =
          floorPass 1 (floorPass 1 (floorPass 1
            (integrateVertex [] none ⟨0, 0, 0⟩ ⟨1, 0, 0⟩ 0 now c10St 0))) :=
      fun now => rfl
    have hpos : ∀ now : ℝ,
        (integrateVertex [] none ⟨0, 0, 0⟩ ⟨1, 0, 0⟩ 0 now c10St 0).positions 0 =
          ⟨windFactor now 0 * TIMESTEP * TIMESTEP, 0, 0⟩ := by
      intro now
      rw [c10_integrate_pos]
      simp only [Vec3.mk.injEq]
      refine ⟨by ring, by ring, by ring⟩
    have hy : ∀ now : ℝ,
        ((integrateVertex [] none ⟨0, 0, 0⟩ ⟨1, 0, 0⟩ 0 now c10St 0).positions 0).y = 0 := by
      intro now
      rw [hpos now]
    have hupd : ∀ now : ℝ,
        (update [] [] none ⟨0, 0, 0⟩ ⟨1, 0, 0⟩ 0 now 1 c10St).positions 0 =
          ⟨windFactor now 0 * TIMESTEP * TIMESTEP, 0, 0⟩ := by
      intro now
      rw [key now, c10_floorPass_keep _ (hy now), c10_floorPass_keep _ (hy now),
        c10_floorPass_keep _ (hy now), hpos now]
    rw [hupd, hupd, c10_wf_pos, c10_wf_neg]
    intro h
    have hxx := congrArg Vec3.x h
    simp only at hxx
    rw [TIMESTEP] at hxx
    norm_num at hxx

end ClothPhysics

namespace ClothPhysics

/-- Witness for C10: with the concrete wind `(0, 5, 0)` (no horizontal
component) two different clock readings give identical results. -/
theorem update_wind_clock_dependence_witness :
    ((Vec3.mk 0 5 0).x = 0 ∧ (Vec3.mk 0 5 0).z = 0) ∧
      update [] [] none ⟨0, 0, 0⟩ ⟨0, 5, 0⟩ (-5) 3 1 c10St =
        update [] [] none ⟨0, 0, 0⟩ ⟨0, 5, 0⟩ (-5) 4 1 c10St :=
  ⟨⟨rfl, rfl⟩,
    update_wind_clock_dependence.1 [] [] none ⟨0, 0, 0⟩ ⟨0, 5, 0⟩ (-5) 1 c10St rfl rfl 3 4⟩

end ClothPhysics
